import Mathlib

/-!
Verification of the rojo live-sync server fragment against its design
specification.

The repository fragment contains two source files:
* `src/web/ui.rs` — the HTTP presentation layer (`UiService`);
* `rojo-test/src/serve_util.rs` — test tooling, including the
  process-scoped port allocator `get_port_number`.

The synchronization engine (`ServeSession`, change log, `changes_since`,
`apply_diffs`) is described by the specification but its code is not part
of the fragment; it is modelled here directly from the specification's
words, with each such definition marked `Modelled from the spec`.
-/

namespace Ui

/-- Modelled from the spec: the structured error kinds the protocol layer
may report to a client (`web/interface.rs` is not part of the fragment). -/
inductive ErrorKind where
  | NotFound
  | StaleSession
  | BadRequest
deriving DecidableEq, Repr

/-- Modelled from the spec: a structured error response carrying a
machine-distinguishable kind and a human-readable message
(`ErrorResponse` of `web/interface.rs`, absent from the fragment). -/
structure ErrorResponse where
  kind : ErrorKind
  message : String
deriving DecidableEq, Repr

/-- Embeds `ErrorResponse::not_found` from `web/interface.rs` (absent from
the fragment): a `NotFound` error with the given message. -/
def ErrorResponse.not_found (message : String) : ErrorResponse :=
  { kind := ErrorKind.NotFound, message := message }

/-- Modelled from the spec: the server version string reported on status
pages (`SERVER_VERSION` of `web/interface.rs`, absent from the fragment). -/
def SERVER_VERSION : String := "0.5.0"

/-- HTTP method of a request, as matched by `UiService::call`. -/
inductive Method where
  | GET
  | POST
  | other (name : String)
deriving DecidableEq, Repr

/-- An HTTP request, reduced to the two components `UiService::call`
inspects: the method and the URI path. -/
structure Request where
  method : Method
  path : String
deriving DecidableEq, Repr

/-- Shallow embedding of the `ritz` HTML content tree built by the
`html!` templates in `src/web/ui.rs`. -/
inductive Html where
  | text (s : String)
  | elem (tag : String) (attrs : List (String × String)) (children : List Html)

/-- The body of an HTTP response produced by `UiService`. -/
inductive RespBody where
  | html (content : Html)
  | png (asset : String)
  | plain (s : String)
  | json (err : ErrorResponse)

/-- An HTTP response: status code, content type header, body. -/
structure Response where
  status : Nat
  contentType : String
  body : RespBody

/-- Modelled from the spec: a hyper service-level error
(`hyper::Error`); `UiService::call` never produces one. -/
inductive HyperError where
  | connectionError
deriving DecidableEq, Repr

/-- Modelled from the spec: `web/util.rs::json` (absent from the
fragment) serializes a value as a JSON response with the given status,
wrapped in an immediately successful future. -/
def json (err : ErrorResponse) (status : Nat) : Except HyperError Response :=
  Except.ok { status := status, contentType := "application/json", body := RespBody.json err }

/-- The slice of `ServeSession` state that `UiService` reads:
`project_name()` and `start_time()` (the session's code is not part of
the fragment; these two accessors are modelled from the spec as plain
reads of per-session facts). Times are in nanoseconds. -/
structure ServeSession where
  projectName : Option String
  startTimeNanos : Nat
deriving DecidableEq, Repr

/-- Embeds `UiService`: holds a shared reference to the serve session. -/
structure UiService where
  serve_session : ServeSession
deriving DecidableEq, Repr

/-- Modelled from the spec: `assets::logo()` (asset bytes, absent from
the fragment; content is irrelevant to every claim). -/
def logoAsset : String := "logo-png-bytes"

/-- Modelled from the spec: `assets::icon()`. -/
def iconAsset : String := "icon-png-bytes"

/-- Modelled from the spec: `assets::css()`. -/
def cssAsset : String := "stylesheet"

/-- Modelled from the spec: `humantime::format_duration` (external
crate), rendering a duration as a human-readable string; modelled as a
whole-second count. -/
def format_duration (nanos : Nat) : String :=
  toString (nanos / 1000000000) ++ "s"

/-- Embeds `UiService::stat_item`: a labelled statistics span. -/
def stat_item (name : String) (value : String) : Html :=
  Html.elem "span" [("class", "stat")]
    [ Html.elem "span" [("class", "stat-name")] [Html.text name, Html.text ": "],
      Html.elem "span" [("class", "stat-value")] [Html.text value] ]

/-- Embeds `UiService::button`: a link styled as a button. -/
def button (text : String) (href : String) : Html :=
  Html.elem "a" [("class", "button"), ("href", href)] [Html.text text]

/-- Embeds `UiService::page`: the outer HTML document around a body. -/
def page (body : Html) : Html :=
  Html.elem "html" []
    [ Html.elem "head" []
        [ Html.elem "title" [] [Html.text "Rojo Live Server"],
          Html.elem "link" [("rel", "icon"), ("type", "image/png"), ("sizes", "32x32"), ("href", "/icon.png")] [],
          Html.elem "meta" [("name", "viewport"), ("content", "width=device-width, initial-scale=1, minimum-scale=1, maximum-scale=1")] [],
          Html.elem "style" [] [Html.text cssAsset] ],
      Html.elem "body" [] [body] ]

/-- The uptime string computed inside `UiService::normal_page`: elapsed
time since session start with sub-second precision rounded off, then
formatted. `now` is the current time in nanoseconds. -/
def uptimeString (s : ServeSession) (now : Nat) : String :=
  let elapsed := now - s.startTimeNanos
  let just_nanos := elapsed % 1000000000
  format_duration (elapsed - just_nanos)

/-- Embeds `UiService::normal_page`: the standard status page layout with
header statistics (server version, project name, uptime) around a body.
A missing project name is replaced by the literal string `<unnamed>`. -/
def normal_page (svc : UiService) (now : Nat) (body : Html) : Html :=
  let project_name := svc.serve_session.projectName.getD "<unnamed>"
  let uptime := uptimeString svc.serve_session now
  page (Html.elem "div" [("class", "root")]
    [ Html.elem "header" [("class", "header")]
        [ Html.elem "img" [("class", "main-logo"), ("src", "/logo.png")] [],
          Html.elem "div" [("class", "stats")]
            [ stat_item "Server Version" SERVER_VERSION,
              stat_item "Project" project_name,
              stat_item "Server Uptime" uptime ] ],
      Html.elem "main" [("class", "main")] [body] ])

/-- Embeds `UiService::handle_logo`. -/
def handle_logo : Response :=
  { status := 200, contentType := "image/png", body := RespBody.png logoAsset }

/-- Embeds `UiService::handle_icon`. -/
def handle_icon : Response :=
  { status := 200, contentType := "image/png", body := RespBody.png iconAsset }

/-- The button list rendered on the home page by `handle_home`. -/
def homeButtons : Html :=
  Html.elem "div" [("class", "button-list")]
    [ button "Rojo Documentation" "https://rojo.space/docs",
      button "View in-memory filesystem state" "/show-imfs",
      button "View instance tree state" "/show-instances" ]

/-- Embeds `UiService::handle_home`: the home status page. -/
def handle_home (svc : UiService) (now : Nat) : Response :=
  { status := 200, contentType := "text/html",
    body := RespBody.html (normal_page svc now homeButtons) }

/-- Embeds `UiService::handle_show_instances` (placeholder page). -/
def handle_show_instances : Response :=
  { status := 200, contentType := "text/plain", body := RespBody.plain "TODO: /show-instances" }

/-- Embeds `UiService::handle_show_imfs` (placeholder page). -/
def handle_show_imfs : Response :=
  { status := 200, contentType := "text/plain", body := RespBody.plain "TODO: /show-imfs" }

/-- Embeds `UiService::call`: route dispatch over (method, path). The
result pairs the response future (always `Except.ok`, mirroring
`future::ok`) with the service state after the call; the handlers take
`&self`, so the state is returned unchanged. -/
def call (svc : UiService) (now : Nat) (req : Request) :
    Except HyperError Response × UiService :=
  match req.method, req.path with
  | Method.GET, "/" => (Except.ok (handle_home svc now), svc)
  | Method.GET, "/logo.png" => (Except.ok handle_logo, svc)
  | Method.GET, "/icon.png" => (Except.ok handle_icon, svc)
  | Method.GET, "/show-instances" => (Except.ok handle_show_instances, svc)
  | Method.GET, "/show-imfs" => (Except.ok handle_show_imfs, svc)
  | _, path => (json (ErrorResponse.not_found ("Route not found: " ++ path)) 404, svc)

/-- The five routes served by `UiService`. -/
def uiRoutes : List String :=
  ["/", "/logo.png", "/icon.png", "/show-instances", "/show-imfs"]

end Ui

namespace PortAlloc

/-- Word size of `usize` on the test platform: `AtomicUsize` arithmetic
wraps modulo this. -/
def USIZE_MOD : Nat := 2 ^ 64

/-- The documented initial value of the `NEXT_PORT_NUMBER` counter in
`rojo-test/src/serve_util.rs`. -/
def NEXT_PORT_INIT : Nat := 35103

/-- Embeds `get_port_number`: one call on the current counter state
returns the state's value and advances the counter by one
(`fetch_add(1)` on an `AtomicUsize`, which wraps modulo `2 ^ 64`). -/
def get_port_number (state : Nat) : Nat × Nat :=
  (state % USIZE_MOD, (state + 1) % USIZE_MOD)

/-- The counter state after `n` calls to `get_port_number`, starting
from the documented initial value. -/
def portStateAfter : Nat → Nat
  | 0 => NEXT_PORT_INIT % USIZE_MOD
  | n + 1 => (get_port_number (portStateAfter n)).2

/-- The value returned by the `n`-th call (0-indexed) to
`get_port_number` within a process. -/
def portValue (n : Nat) : Nat :=
  (get_port_number (portStateAfter n)).1

end PortAlloc

namespace Sync

/-- Modelled from the spec: an instance — a typed node of the synced
tree with a class tag, an ordered property map (typed values abstracted
as strings), an ordered sequence of child ids, and a parent id (absent
only for the root). The `ServeSession` code is not part of the
fragment. -/
structure Instance where
  className : String
  properties : List (String × String)
  children : List Nat
  parent : Option Nat
deriving DecidableEq, Repr

/-- Modelled from the spec: the instance tree — a flat arena of
instances keyed by stable id, plus the id of the root instance. -/
structure Tree where
  rootId : Nat
  nodes : List (Nat × Instance)
deriving DecidableEq, Repr

/-- Lookup of the first entry with the given id in the arena. -/
def findInst : List (Nat × Instance) → Nat → Option Instance
  | [], _ => none
  | (k, v) :: rest, id => if k = id then some v else findInst rest id

/-- O(1)-style identity-based access into the arena (spec §9). -/
def Tree.find (t : Tree) (id : Nat) : Option Instance :=
  findInst t.nodes id

/-- Replace the instance stored under `id` (all entries with that key)
by applying `f` to it. -/
def setEntry : List (Nat × Instance) → Nat → (Instance → Instance) → List (Nat × Instance)
  | [], _, _ => []
  | (k, v) :: rest, id, f =>
    if k = id then (k, f v) :: setEntry rest id f else (k, v) :: setEntry rest id f

/-- Remove every entry with the given id from the arena. -/
def eraseEntry : List (Nat × Instance) → Nat → List (Nat × Instance)
  | [], _ => []
  | (k, v) :: rest, id =>
    if k = id then eraseEntry rest id else (k, v) :: eraseEntry rest id

/-- Modelled from the spec: an instance-level mutation, one of
add / remove / update-properties / update-children (spec §3, Change
Record). -/
inductive Diff where
  | add (id : Nat) (className : String) (properties : List (String × String)) (parent : Nat)
  | updateProperties (id : Nat) (properties : List (String × String))
  | updateChildren (id : Nat) (children : List Nat)
  | remove (id : Nat)
deriving DecidableEq, Repr

/-- Modelled from the spec: apply one instance-level diff to the tree.
A diff that violates the internal invariants (unknown parent id, unknown
target, removal of a non-empty or root instance, a children update that
is not a reordering) is a programming-bug-class failure, fatal to the
affected operation (spec §7(d)) — modelled as `none`.

* `add` requires a fresh id and an existing parent; the new instance is
  childless and is appended to its parent's children list.
* `updateProperties` replaces the property map in place.
* `updateChildren` reorders an instance's children (a permutation of the
  existing list, since standalone children updates must preserve
  bidirectional consistency).
* `remove` removes a non-root instance whose descendants were already
  removed (spec §4.3: removals of descendants are emitted before their
  parent's), unlinking it from its parent's children list. -/
def applyDiff (t : Tree) (d : Diff) : Option Tree :=
  match d with
  | Diff.add id cls props parentId =>
    match t.find id, t.find parentId with
    | none, some _ =>
      let linked := setEntry t.nodes parentId
        (fun inst => { inst with children := inst.children ++ [id] })
      let newInst : Instance :=
        { className := cls, properties := props, children := [], parent := some parentId }
      some { t with nodes := linked ++ [(id, newInst)] }
    | _, _ => none
  | Diff.updateProperties id props =>
    match t.find id with
    | some _ =>
      some { t with nodes := setEntry t.nodes id (fun inst => { inst with properties := props }) }
    | none => none
  | Diff.updateChildren id newChildren =>
    match t.find id with
    | some inst =>
      if List.Perm newChildren inst.children then
        some { t with nodes := setEntry t.nodes id (fun i => { i with children := newChildren }) }
      else none
    | none => none
  | Diff.remove id =>
    match t.find id with
    | some inst =>
      if inst.children = [] ∧ id ≠ t.rootId then
        match inst.parent with
        | some p =>
          let unlinked := setEntry (eraseEntry t.nodes id) p
            (fun i => { i with children := i.children.erase id })
          some { t with nodes := unlinked }
        | none => none
      else none
    | none => none

/-- Modelled from the spec: an immutable change-log entry — one
instance-level mutation tagged with its cursor value. -/
structure ChangeRecord where
  cursor : Nat
  diff : Diff
deriving DecidableEq, Repr

/-- Modelled from the spec: the serve session — session identity, the
live instance tree, the append-only change log, and the next cursor to
allocate. -/
structure Session where
  sessionId : Nat
  tree : Tree
  log : List ChangeRecord
  nextCursor : Nat
deriving DecidableEq, Repr

/-- Modelled from the spec: a fresh session holds a single root
instance, an empty change log, and allocates cursors starting at 1 (so
that 0 is the cursor a client starts from). -/
def initialSession (sessionId rootId : Nat) (cls : String) : Session :=
  { sessionId := sessionId,
    tree := { rootId := rootId,
              nodes := [(rootId, { className := cls, properties := [], children := [], parent := none })] },
    log := [],
    nextCursor := 1 }

/-- Modelled from the spec: one step of `apply_diffs` — mutate the tree
by one diff and, when it is accepted, append it to the change log under
the newly allocated cursor; a rejected diff is fatal to that operation
only and appends nothing. -/
def applyOne (s : Session) (d : Diff) : Session :=
  match applyDiff s.tree d with
  | some t' =>
    { s with tree := t',
             log := s.log ++ [{ cursor := s.nextCursor, diff := d }],
             nextCursor := s.nextCursor + 1 }
  | none => s

/-- Modelled from the spec: `apply_diffs` — mutate the tree and append
every accepted diff of the batch to the change log under newly
allocated, strictly increasing cursors. The whole batch is one atomic
step with respect to readers. -/
def applyDiffs (s : Session) (batch : List Diff) : Session :=
  batch.foldl applyOne s

/-- The cursor values of all records this session has ever issued. -/
def cursors (s : Session) : List Nat :=
  s.log.map ChangeRecord.cursor

/-- Modelled from the spec: the distinct stale-session condition
signalled for a foreign or previous session's cursor. -/
inductive StaleError where
  | staleSession
deriving DecidableEq, Repr

/-- Modelled from the spec: `changes_since(cursor)` — if the cursor is
the initial cursor 0 or corresponds to a record this session issued,
return all change records with cursor strictly greater than it, in
cursor order, together with the new high-water mark (the input cursor
when there are no new records); otherwise signal the distinct
stale-session condition. -/
def changes_since (s : Session) (cursor : Nat) :
    Except StaleError (List ChangeRecord × Nat) :=
  if cursor = 0 ∨ cursor ∈ cursors s then
    let msgs := s.log.filter (fun r => decide (cursor < r.cursor))
    Except.ok (msgs, msgs.foldl (fun a r => max a r.cursor) cursor)
  else
    Except.error StaleError.staleSession

/-- Modelled from the spec: `get_root_info` — static per-session facts. -/
structure RootInfo where
  sessionId : Nat
  rootInstanceId : Nat
deriving DecidableEq, Repr

/-- Modelled from the spec: `get_root_info()` — pure read of the
session's identity. -/
def get_root_info (s : Session) : RootInfo :=
  { sessionId := s.sessionId, rootInstanceId := s.tree.rootId }

/-- Modelled from the spec: `get_instance(id)` — pure read returning the
instance or a NotFound condition (`none`). -/
def get_instance (s : Session) (id : Nat) : Option Instance :=
  s.tree.find id

/-- Modelled from the spec: one event touching session state — either
the watcher pipeline applying a diff batch, or one of the three read
operations. -/
inductive Event where
  | write (batch : List Diff)
  | readInstance (id : Nat)
  | readRootInfo
  | readChanges (cursor : Nat)
deriving DecidableEq, Repr

/-- State transition of one event: a write applies its whole batch
atomically; reads are pure queries and leave the state unchanged. -/
def stepState (s : Session) : Event → Session
  | Event.write b => applyDiffs s b
  | Event.readInstance _ => s
  | Event.readRootInfo => s
  | Event.readChanges _ => s

/-- The session state after a serialized history of events. -/
def runEvents (s : Session) (es : List Event) : Session :=
  es.foldl stepState s

/-- The diff batches written during a history, in order. -/
def writesOf (es : List Event) : List (List Diff) :=
  es.filterMap (fun e => match e with | Event.write b => some b | _ => none)

/-- The session state after applying a list of diff batches. -/
def applyBatchList (s : Session) (bs : List (List Diff)) : Session :=
  bs.foldl applyDiffs s

/-- Modelled from the spec: a client which, starting from cursor `c`,
calls `changes_since` once, then repeats after each further diff batch
is applied, each time passing the cursor returned by the previous call;
returns the concatenation of all returned message lists and the final
cursor. -/
def clientRun (s : Session) (c : Nat) : List (List Diff) → List ChangeRecord × Nat
  | [] =>
    match changes_since s c with
    | Except.ok (msgs, c') => (msgs, c')
    | Except.error _ => ([], c)
  | b :: bs =>
    match changes_since s c with
    | Except.ok (msgs, c') =>
      let rest := clientRun (applyDiffs s b) c' bs
      (msgs ++ rest.1, rest.2)
    | Except.error _ => ([], c)

/-- A cursor a client may legitimately hold against session `s`: the
initial cursor 0 or the cursor of a record the session issued. -/
def ValidCursor (s : Session) (c : Nat) : Prop :=
  c = 0 ∨ c ∈ cursors s

/-- The up-to-date cursor of a session: the highest cursor the log has
issued (0 when nothing was issued). -/
def highWaterMark (s : Session) : Nat :=
  s.log.foldl (fun a r => max a r.cursor) 0

/-- Change-log invariant of a session: record cursors are strictly
increasing, positive, and below the next cursor to allocate, which is
itself positive. -/
structure SInv (s : Session) : Prop where
  sorted : List.Pairwise (· < ·) (cursors s)
  bounded : ∀ r ∈ s.log, r.cursor < s.nextCursor
  positive : ∀ r ∈ s.log, 0 < r.cursor
  nextPos : 1 ≤ s.nextCursor

/-- Proper ancestry in the tree through parent links: `IsAncestor t a c`
holds when following parent ids from `c` reaches `a` in one or more
steps. -/
inductive IsAncestor (t : Tree) : Nat → Nat → Prop where
  | parent (c : Nat) (inst : Instance) (a : Nat) :
      t.find c = some inst → inst.parent = some a → IsAncestor t a c
  | trans (a b c : Nat) : IsAncestor t a b → IsAncestor t b c → IsAncestor t a c

/-- Well-formedness of the instance tree (spec §3): the root exists and
has no parent; every other instance's parent id resolves and the
instance is listed among that parent's children; every listed child
resolves back to its parent; a child id is listed under at most one
parent and at most once; and parent links admit a rank function (hence
no cycles). -/
structure WF (t : Tree) : Prop where
  rootOk : ∃ r, t.find t.rootId = some r ∧ r.parent = none
  parentOk : ∀ id inst, t.find id = some inst → id ≠ t.rootId →
    ∃ p pInst, inst.parent = some p ∧ t.find p = some pInst ∧ id ∈ pInst.children
  childOk : ∀ id inst c, t.find id = some inst → c ∈ inst.children →
    ∃ cInst, t.find c = some cInst ∧ cInst.parent = some id
  childUnique : ∀ j₁ inst₁ j₂ inst₂ c, t.find j₁ = some inst₁ → t.find j₂ = some inst₂ →
    c ∈ inst₁.children → c ∈ inst₂.children → j₁ = j₂
  childNodup : ∀ id inst, t.find id = some inst → List.Nodup inst.children
  ranked : ∃ rank : Nat → Nat, ∀ id inst p, t.find id = some inst → inst.parent = some p →
    rank id = rank p + 1

/-- Tree states observable by a read: reachable from the initial tree by
applying accepted instance-level diffs. -/
inductive Reachable (init : Tree) : Tree → Prop where
  | refl : Reachable init init
  | step (t t' : Tree) (d : Diff) : Reachable init t → applyDiff t d = some t' →
      Reachable init t'

/-- The consistency bundle claimed for every observable tree state:
parent resolution, bidirectional child resolution, a unique parent per
child id, and acyclicity of the ancestor relation. -/
def TreeConsistent (t : Tree) : Prop :=
  (∀ id inst, t.find id = some inst → id ≠ t.rootId →
    ∃ p pInst, inst.parent = some p ∧ t.find p = some pInst ∧ id ∈ pInst.children) ∧
  (∀ id inst c, t.find id = some inst → c ∈ inst.children →
    ∃ cInst, t.find c = some cInst ∧ cInst.parent = some id) ∧
  (∀ j₁ inst₁ j₂ inst₂ c, t.find j₁ = some inst₁ → t.find j₂ = some inst₂ →
    c ∈ inst₁.children → c ∈ inst₂.children → j₁ = j₂) ∧
  (∀ x, ¬ IsAncestor t x x)

end Sync

namespace Sync

theorem findInst_setEntry (nodes : List (Nat × Instance)) (id : Nat) (f : Instance → Instance)
    (j : Nat) :
    findInst (setEntry nodes id f) j =
      if j = id then (findInst nodes j).map f else findInst nodes j := by
  induction nodes with
  | nil =>
    simp only [setEntry, findInst, Option.map_none]
    split <;> rfl
  | cons p rest ih =>
    obtain ⟨k, v⟩ := p
    simp only [setEntry]
    by_cases hk : k = id <;> by_cases hjid : j = id <;> by_cases hkj : k = j <;>
      simp_all [findInst]

theorem findInst_append_some (nodes extra : List (Nat × Instance)) (j : Nat) (w : Instance)
    (h : findInst nodes j = some w) :
    findInst (nodes ++ extra) j = some w := by
  induction nodes with
  | nil => simp [findInst] at h
  | cons p rest ih =>
    obtain ⟨k, v⟩ := p
    by_cases hj : k = j <;> simp_all [findInst]

theorem findInst_append_none (nodes extra : List (Nat × Instance)) (j : Nat)
    (h : findInst nodes j = none) :
    findInst (nodes ++ extra) j = findInst extra j := by
  induction nodes with
  | nil => simp [findInst]
  | cons p rest ih =>
    obtain ⟨k, v⟩ := p
    by_cases hj : k = j <;> simp_all [findInst]

theorem findInst_eraseEntry (nodes : List (Nat × Instance)) (id j : Nat) :
    findInst (eraseEntry nodes id) j = if j = id then none else findInst nodes j := by
  induction nodes with
  | nil =>
    simp only [eraseEntry, findInst]
    split <;> rfl
  | cons p rest ih =>
    obtain ⟨k, v⟩ := p
    simp only [eraseEntry]
    by_cases hk : k = id <;> by_cases hjid : j = id <;> by_cases hkj : k = j <;>
      simp_all [findInst]

theorem find_addResult (t : Tree) (id parentId : Nat) (newInst pv : Instance)
    (f : Instance → Instance)
    (hid : t.find id = none) (hp : t.find parentId = some pv) (j : Nat) :
    findInst (setEntry t.nodes parentId f ++ [(id, newInst)]) j =
      if j = id then some newInst
      else if j = parentId then some (f pv)
      else t.find j := by
  have hne : id ≠ parentId := by
    intro h
    rw [h, hp] at hid
    cases hid
  have hpn : findInst t.nodes parentId = some pv := hp
  have hidn : findInst t.nodes id = none := hid
  by_cases hj : j = id
  · subst hj
    have h1 : findInst (setEntry t.nodes parentId f) j = none := by
      rw [findInst_setEntry, if_neg hne]
      exact hidn
    rw [findInst_append_none _ _ _ h1]
    simp [findInst]
  · by_cases hjp : j = parentId
    · have h1 : findInst (setEntry t.nodes parentId f) j = some (f pv) := by
        rw [findInst_setEntry, if_pos hjp, hjp, hpn]
        rfl
      rw [findInst_append_some _ _ _ _ h1, if_neg hj, if_pos hjp]
    · cases hw : t.find j with
      | some w =>
        have hwn : findInst t.nodes j = some w := hw
        have h1 : findInst (setEntry t.nodes parentId f) j = some w := by
          rw [findInst_setEntry, if_neg hjp]
          exact hwn
        rw [findInst_append_some _ _ _ _ h1, if_neg hj, if_neg hjp]
      | none =>
        have hwn : findInst t.nodes j = none := hw
        have h1 : findInst (setEntry t.nodes parentId f) j = none := by
          rw [findInst_setEntry, if_neg hjp]
          exact hwn
        rw [findInst_append_none _ _ _ h1, if_neg hj, if_neg hjp]
        simp [findInst, Ne.symm hj]

theorem find_removeResult (t : Tree) (id p : Nat) (f : Instance → Instance) (j : Nat) :
    findInst (setEntry (eraseEntry t.nodes id) p f) j =
      if j = id then none
      else if j = p then (t.find j).map f
      else t.find j := by
  rw [findInst_setEntry, findInst_eraseEntry]
  by_cases hj : j = id <;> by_cases hjp : j = p <;>
    simp_all [Tree.find, apply_ite (Option.map f)]

/-- For every instance with a parent link, the parent id resolves in a
well-formed tree. -/
theorem WF.parentResolves (t : Tree) (hwf : WF t) :
    ∀ j i q, t.find j = some i → i.parent = some q → ∃ qi, t.find q = some qi := by
  intro j i q hj hq
  by_cases hjr : j = t.rootId
  · obtain ⟨r, hr, hrp⟩ := hwf.rootOk
    rw [hjr, hr] at hj
    injection hj with hj
    rw [← hj, hrp] at hq
    cases hq
  · obtain ⟨p, pi, hip, hpf, _⟩ := hwf.parentOk j i hj hjr
    rw [hip] at hq
    injection hq with hq
    rw [← hq]
    exact ⟨pi, hpf⟩

/-- Applying an accepted `add` diff preserves tree well-formedness. -/
theorem wf_add (t t' : Tree) (id : Nat) (cls : String)
    (props : List (String × String)) (parentId : Nat) (hwf : WF t)
    (ht' : applyDiff t (Diff.add id cls props parentId) = some t') : WF t' := by
  simp only [applyDiff] at ht'
  split at ht'
  · rename_i pv hid hp
    injection ht' with ht'
    subst ht'
    have hne : id ≠ parentId := by
      intro h
      rw [h, hp] at hid
      cases hid
    have hf : ∀ j,
        findInst ((setEntry t.nodes parentId fun inst =>
            { inst with children := inst.children ++ [id] }) ++
          [(id, { className := cls, properties := props, children := [],
                  parent := some parentId })]) j =
          if j = id then
            some { className := cls, properties := props, children := [],
                   parent := some parentId }
          else if j = parentId then some { pv with children := pv.children ++ [id] }
          else t.find j :=
      fun j => find_addResult t id parentId _ pv _ hid hp j
    have hid_not_child : ∀ j i, t.find j = some i → id ∉ i.children := by
      intro j i hj hmem
      obtain ⟨ci, hci, _⟩ := hwf.childOk j i id hj hmem
      rw [hci] at hid
      cases hid
    refine ⟨?_, ?_, ?_, ?_, ?_, ?_⟩
    · -- rootOk
      obtain ⟨r, hr, hrp⟩ := hwf.rootOk
      have hrid : t.rootId ≠ id := by
        intro h
        rw [h, hid] at hr
        cases hr
      simp only [Tree.find]
      by_cases hrp2 : t.rootId = parentId
      · have hrv : r = pv := by
          have h' := hr
          rw [hrp2, hp] at h'
          exact (Option.some.inj h').symm
        refine ⟨{ pv with children := pv.children ++ [id] }, ?_, ?_⟩
        · rw [hf, if_neg hrid, if_pos hrp2]
        · show pv.parent = none
          rw [← hrv]
          exact hrp
      · exact ⟨r, by rw [hf, if_neg hrid, if_neg hrp2]; exact hr, hrp⟩
    · -- parentOk
      intro j inst hj hjroot
      simp only [Tree.find] at hj ⊢
      rw [hf] at hj
      split_ifs at hj with h1 h2
      · -- j = id : the new instance
        injection hj with hj
        refine ⟨parentId, { pv with children := pv.children ++ [id] }, ?_, ?_, ?_⟩
        · rw [← hj]
        · rw [hf, if_neg (fun h => hne h.symm), if_pos rfl]
        · rw [h1]
          simp
      · -- j = parentId : the parent gained a child
        injection hj with hj
        have hjroot2 : parentId ≠ t.rootId := by
          rw [← h2]
          exact hjroot
        obtain ⟨q, qi, hqp, hqf, hqm⟩ := hwf.parentOk parentId pv hp hjroot2
        have hqid : q ≠ id := by
          intro h
          rw [h, hid] at hqf
          cases hqf
        by_cases hq2 : q = parentId
        · have hqv : qi = pv := by
            have h' := hqf
            rw [hq2, hp] at h'
            exact (Option.some.inj h').symm
          refine ⟨q, { pv with children := pv.children ++ [id] }, ?_, ?_, ?_⟩
          · rw [← hj]
            show pv.parent = some q
            exact hqp
          · rw [hf, if_neg hqid, if_pos hq2]
          · rw [h2]
            exact List.mem_append_left _ (by rw [← hqv]; exact hqm)
        · refine ⟨q, qi, ?_, ?_, ?_⟩
          · rw [← hj]
            exact hqp
          · rw [hf, if_neg hqid, if_neg hq2]
            exact hqf
          · rw [h2]
            exact hqm
      · -- untouched instance
        obtain ⟨q, qi, hqp, hqf, hqm⟩ := hwf.parentOk j inst hj hjroot
        have hqid : q ≠ id := by
          intro h
          rw [h, hid] at hqf
          cases hqf
        by_cases hq2 : q = parentId
        · have hqv : qi = pv := by
            have h' := hqf
            rw [hq2, hp] at h'
            exact (Option.some.inj h').symm
          refine ⟨q, { pv with children := pv.children ++ [id] }, hqp, ?_, ?_⟩
          · rw [hf, if_neg hqid, if_pos hq2]
          · exact List.mem_append_left _ (by rw [← hqv]; exact hqm)
        · exact ⟨q, qi, hqp, by rw [hf, if_neg hqid, if_neg hq2]; exact hqf, hqm⟩
    · -- childOk
      intro j inst c hj hc
      simp only [Tree.find] at hj ⊢
      rw [hf] at hj
      have resolve : ∀ i₀, t.find j = some i₀ → c ∈ i₀.children →
          ∃ ci, findInst ((setEntry t.nodes parentId fun inst =>
              { inst with children := inst.children ++ [id] }) ++
            [(id, { className := cls, properties := props, children := [],
                    parent := some parentId })]) c = some ci ∧ ci.parent = some j := by
        intro i₀ hj₀ hc₀
        obtain ⟨ci, hcf, hcp⟩ := hwf.childOk j i₀ c hj₀ hc₀
        have hcid : c ≠ id := by
          intro h
          rw [h, hid] at hcf
          cases hcf
        by_cases hc2 : c = parentId
        · have hcv : ci = pv := by
            have h' := hcf
            rw [hc2, hp] at h'
            exact (Option.some.inj h').symm
          refine ⟨{ pv with children := pv.children ++ [id] }, ?_, ?_⟩
          · rw [hf, if_neg hcid, if_pos hc2]
          · show pv.parent = some j
            rw [← hcv]
            exact hcp
        · exact ⟨ci, by rw [hf, if_neg hcid, if_neg hc2]; exact hcf, hcp⟩
      split_ifs at hj with h1 h2
      · -- j = id : no children
        injection hj with hj
        rw [← hj] at hc
        simp at hc
      · -- j = parentId
        injection hj with hj
        rw [← hj] at hc
        have hc2 : c ∈ pv.children ∨ c = id := by
          simpa using hc
        rcases hc2 with hcm | hcm
        · exact resolve pv (by rw [h2]; exact hp) hcm
        · refine ⟨{ className := cls, properties := props, children := [],
                    parent := some parentId }, ?_, ?_⟩
          · rw [hcm, hf, if_pos rfl]
          · show some parentId = some j
            rw [h2]
      · exact resolve inst hj hc
    · -- childUnique
      intro j₁ i₁ j₂ i₂ c h₁ h₂ hc₁ hc₂
      simp only [Tree.find] at h₁ h₂
      have key : ∀ j i, findInst ((setEntry t.nodes parentId fun inst =>
            { inst with children := inst.children ++ [id] }) ++
          [(id, { className := cls, properties := props, children := [],
                  parent := some parentId })]) j = some i → c ∈ i.children →
          (c = id ∧ j = parentId) ∨ (∃ i₀, t.find j = some i₀ ∧ c ∈ i₀.children) := by
        intro j i hj hc
        rw [hf] at hj
        split_ifs at hj with h1 h2
        · injection hj with hj
          rw [← hj] at hc
          simp at hc
        · injection hj with hj
          rw [← hj] at hc
          have hc2 : c ∈ pv.children ∨ c = id := by
            simpa using hc
          rcases hc2 with hcm | hcm
          · exact Or.inr ⟨pv, by rw [h2]; exact hp, hcm⟩
          · exact Or.inl ⟨hcm, h2⟩
        · exact Or.inr ⟨i, hj, hc⟩
      rcases key j₁ i₁ h₁ hc₁ with ⟨hcid, hj₁⟩ | ⟨a₁, ha₁, hm₁⟩
      · rcases key j₂ i₂ h₂ hc₂ with ⟨_, hj₂⟩ | ⟨a₂, ha₂, hm₂⟩
        · rw [hj₁, hj₂]
        · rw [hcid] at hm₂
          exact absurd hm₂ (hid_not_child j₂ a₂ ha₂)
      · rcases key j₂ i₂ h₂ hc₂ with ⟨hcid, hj₂⟩ | ⟨a₂, ha₂, hm₂⟩
        · rw [hcid] at hm₁
          exact absurd hm₁ (hid_not_child j₁ a₁ ha₁)
        · exact hwf.childUnique j₁ a₁ j₂ a₂ c ha₁ ha₂ hm₁ hm₂
    · -- childNodup
      intro j i hj
      simp only [Tree.find] at hj
      rw [hf] at hj
      split_ifs at hj with h1 h2
      · injection hj with hj
        rw [← hj]
        exact List.nodup_nil
      · injection hj with hj
        rw [← hj]
        show (pv.children ++ [id]).Nodup
        rw [List.nodup_append]
        refine ⟨hwf.childNodup parentId pv hp, List.nodup_singleton id, ?_⟩
        intro a ha hb
        simp only [List.mem_singleton] at hb
        rw [hb] at ha
        exact hid_not_child parentId pv hp ha
      · exact hwf.childNodup j i hj
    · -- ranked
      obtain ⟨rank, hrk⟩ := hwf.ranked
      refine ⟨Function.update rank id (rank parentId + 1), ?_⟩
      intro j i q hj hq
      simp only [Tree.find] at hj
      rw [hf] at hj
      split_ifs at hj with h1 h2
      · injection hj with hj
        have hqe : q = parentId := by
          have h' : some parentId = some q := by
            rw [← hj] at hq
            exact hq
          exact (Option.some.inj h').symm
        rw [h1, hqe, Function.update_same,
          Function.update_noteq (fun h => hne h.symm)]
      · injection hj with hj
        have hq2 : pv.parent = some q := by
          rw [← hj] at hq
          exact hq
        have heq := hrk parentId pv q hp hq2
        obtain ⟨qi, hqf⟩ := WF.parentResolves t hwf parentId pv q hp hq2
        have hqid : q ≠ id := by
          intro h
          rw [h, hid] at hqf
          cases hqf
        rw [h2, Function.update_noteq (fun h => hne h.symm),
          Function.update_noteq hqid]
        exact heq
      · have heq := hrk j i q hj hq
        obtain ⟨qi, hqf⟩ := WF.parentResolves t hwf j i q hj hq
        have hqid : q ≠ id := by
          intro h
          rw [h, hid] at hqf
          cases hqf
        rw [Function.update_noteq h1, Function.update_noteq hqid]
        exact heq
  · exact Option.noConfusion ht'

theorem find_setResult (t : Tree) (id : Nat) (v : Instance) (f : Instance → Instance)
    (hid : t.find id = some v) (j : Nat) :
    findInst (setEntry t.nodes id f) j = if j = id then some (f v) else t.find j := by
  rw [findInst_setEntry]
  by_cases hj : j = id
  · rw [if_pos hj, if_pos hj, hj]
    have h : findInst t.nodes id = some v := hid
    rw [h]
    rfl
  · rw [if_neg hj, if_neg hj]
    rfl

/-- An in-place update of one instance that preserves its parent link,
the membership of its children list, and its children's distinctness
preserves tree well-formedness. -/
theorem wf_setEntry_preserved (t : Tree) (id : Nat) (v : Instance) (f : Instance → Instance)
    (hwf : WF t) (hid : t.find id = some v)
    (hpar : (f v).parent = v.parent)
    (hmem : ∀ c, c ∈ (f v).children ↔ c ∈ v.children)
    (hnd : v.children.Nodup → (f v).children.Nodup) :
    WF { t with nodes := setEntry t.nodes id f } := by
  have hf : ∀ j, findInst (setEntry t.nodes id f) j =
      if j = id then some (f v) else t.find j :=
    find_setResult t id v f hid
  have hlook : ∀ j w, findInst (setEntry t.nodes id f) j = some w →
      ∃ w₀, t.find j = some w₀ ∧ w.parent = w₀.parent ∧
        (∀ c, c ∈ w.children ↔ c ∈ w₀.children) ∧
        (w₀.children.Nodup → w.children.Nodup) := by
    intro j w hj
    rw [hf] at hj
    split_ifs at hj with h1
    · injection hj with hj
      refine ⟨v, by rw [h1]; exact hid, ?_, ?_, ?_⟩
      · rw [← hj]
        exact hpar
      · intro c
        rw [← hj]
        exact hmem c
      · intro h
        rw [← hj]
        exact hnd h
    · exact ⟨w, hj, rfl, fun c => Iff.rfl, fun h => h⟩
  have hback : ∀ j w₀, t.find j = some w₀ →
      ∃ w, findInst (setEntry t.nodes id f) j = some w ∧ w.parent = w₀.parent ∧
        (∀ c, c ∈ w.children ↔ c ∈ w₀.children) := by
    intro j w₀ hj
    by_cases h1 : j = id
    · have hv : w₀ = v := by
        have h' := hj
        rw [h1, hid] at h'
        exact (Option.some.inj h').symm
      refine ⟨f v, by rw [hf, if_pos h1], ?_, ?_⟩
      · rw [hv]
        exact hpar
      · intro c
        rw [hv]
        exact hmem c
    · exact ⟨w₀, by rw [hf, if_neg h1]; exact hj, rfl, fun c => Iff.rfl⟩
  refine ⟨?_, ?_, ?_, ?_, ?_, ?_⟩
  · -- rootOk
    obtain ⟨r, hr, hrp⟩ := hwf.rootOk
    simp only [Tree.find]
    obtain ⟨w, hw, hwp, _⟩ := hback t.rootId r hr
    exact ⟨w, hw, by rw [hwp]; exact hrp⟩
  · -- parentOk
    intro j inst hj hjroot
    simp only [Tree.find] at hj ⊢
    obtain ⟨w₀, hj₀, hp₀, _, _⟩ := hlook j inst hj
    obtain ⟨p, pi, hpp, hpf, hpm⟩ := hwf.parentOk j w₀ hj₀ hjroot
    obtain ⟨w, hw, _, hwm⟩ := hback p pi hpf
    exact ⟨p, w, by rw [hp₀]; exact hpp, hw, (hwm j).mpr hpm⟩
  · -- childOk
    intro j inst c hj hc
    simp only [Tree.find] at hj ⊢
    obtain ⟨w₀, hj₀, _, hm₀, _⟩ := hlook j inst hj
    obtain ⟨ci, hcf, hcp⟩ := hwf.childOk j w₀ c hj₀ ((hm₀ c).mp hc)
    obtain ⟨w, hw, hwp, _⟩ := hback c ci hcf
    exact ⟨w, hw, by rw [hwp]; exact hcp⟩
  · -- childUnique
    intro j₁ i₁ j₂ i₂ c h₁ h₂ hc₁ hc₂
    simp only [Tree.find] at h₁ h₂
    obtain ⟨w₁, hj₁, _, hm₁, _⟩ := hlook j₁ i₁ h₁
    obtain ⟨w₂, hj₂, _, hm₂, _⟩ := hlook j₂ i₂ h₂
    exact hwf.childUnique j₁ w₁ j₂ w₂ c hj₁ hj₂ ((hm₁ c).mp hc₁) ((hm₂ c).mp hc₂)
  · -- childNodup
    intro j i hj
    simp only [Tree.find] at hj
    obtain ⟨w₀, hj₀, _, _, hnd₀⟩ := hlook j i hj
    exact hnd₀ (hwf.childNodup j w₀ hj₀)
  · -- ranked
    obtain ⟨rank, hrk⟩ := hwf.ranked
    refine ⟨rank, ?_⟩
    intro j i q hj hq
    simp only [Tree.find] at hj
    obtain ⟨w₀, hj₀, hp₀, _, _⟩ := hlook j i hj
    exact hrk j w₀ q hj₀ (by rw [← hp₀]; exact hq)

/-- Applying an accepted `updateProperties` diff preserves tree
well-formedness. -/
theorem wf_updateProperties (t t' : Tree) (id : Nat)
    (props : List (String × String)) (hwf : WF t)
    (ht' : applyDiff t (Diff.updateProperties id props) = some t') : WF t' := by
  simp only [applyDiff] at ht'
  split at ht'
  · rename_i v hid
    injection ht' with ht'
    rw [← ht']
    exact wf_setEntry_preserved t id v _ hwf hid rfl (fun c => Iff.rfl) (fun h => h)
  · exact Option.noConfusion ht'

/-- Applying an accepted `remove` diff (of a childless non-root
instance) preserves tree well-formedness. -/
theorem wf_remove (t t' : Tree) (id : Nat) (hwf : WF t)
    (ht' : applyDiff t (Diff.remove id) = some t') : WF t' := by
  simp only [applyDiff] at ht'
  split at ht'
  · rename_i v hid
    split_ifs at ht' with hguard
    · obtain ⟨hempty, hroot⟩ := hguard
      split at ht'
      · rename_i p hpar
        injection ht' with ht'
        rw [← ht']
        -- the parent of the removed instance
        obtain ⟨p₀, pi, hpp, hpf, hpm⟩ := hwf.parentOk id v hid hroot
        have hpe : p₀ = p := by
          rw [hpar] at hpp
          exact (Option.some.inj hpp).symm
        rw [hpe] at hpf
        have hpid : p ≠ id := by
          obtain ⟨rank, hrk⟩ := hwf.ranked
          intro h
          have h1 := hrk id v p hid hpar
          rw [h] at h1
          omega
        have hf : ∀ j, findInst (setEntry (eraseEntry t.nodes id) p
            (fun i => { i with children := i.children.erase id })) j =
            if j = id then none
            else if j = p then (t.find j).map
              (fun i => { i with children := i.children.erase id })
            else t.find j :=
          find_removeResult t id p _
        -- no instance other than the parent lists `id` as a child, and no
        -- child of the removed leaf exists
        have hnotv : ∀ j i c, t.find j = some i → c ∈ i.children → c ≠ id ∨ j = p := by
          intro j i c hj hc
          by_cases hc2 : c = id
          · rw [hc2] at hc
            exact Or.inr (hwf.childUnique j i p pi id hj hpf hc hpm)
          · exact Or.inl hc2
        have hvempty : ∀ c, c ∈ v.children → False := by
          intro c hc
          rw [hempty] at hc
          cases hc
        -- membership transfer: a child listed in the new tree was listed
        -- in the old tree and is not the removed id
        have hlook : ∀ j w, findInst (setEntry (eraseEntry t.nodes id) p
            (fun i => { i with children := i.children.erase id })) j = some w →
            j ≠ id ∧ ∃ w₀, t.find j = some w₀ ∧ w.parent = w₀.parent ∧
              (∀ c, c ∈ w.children → c ∈ w₀.children ∧ c ≠ id) ∧
              (w₀.children.Nodup → w.children.Nodup) := by
          intro j w hj
          rw [hf] at hj
          split_ifs at hj with h1 h2
          · -- j = p : the parent lost the removed child
            cases hw : t.find j with
            | none =>
              rw [hw] at hj
              simp at hj
            | some w₀ =>
              rw [hw] at hj
              have hj2 : ({ w₀ with children := w₀.children.erase id } : Instance) = w := by
                have h' : some ({ w₀ with children := w₀.children.erase id } : Instance)
                    = some w := hj
                exact Option.some.inj h'
              have hpv : w₀ = pi := by
                have h' := hw
                rw [h2, hpf] at h'
                exact (Option.some.inj h').symm
              refine ⟨h1, w₀, rfl, ?_, ?_, ?_⟩
              · rw [← hj2]
              · intro c hc
                rw [← hj2] at hc
                have hcw : c ∈ w₀.children.erase id := hc
                refine ⟨List.mem_of_mem_erase hcw, ?_⟩
                intro hce
                rw [hce, hpv] at hcw
                exact (List.Nodup.not_mem_erase (hwf.childNodup p pi hpf)) hcw
              · intro h
                rw [← hj2]
                exact List.Nodup.erase id h
          · -- untouched instance
            refine ⟨h1, w, hj, rfl, ?_, fun h => h⟩
            intro c hc
            refine ⟨hc, ?_⟩
            intro hce
            rw [hce] at hc
            exact h2 (hwf.childUnique j w p pi id hj hpf hc hpm)
        -- forward transfer: surviving instances keep resolving
        have hback : ∀ j w₀, t.find j = some w₀ → j ≠ id →
            ∃ w, findInst (setEntry (eraseEntry t.nodes id) p
              (fun i => { i with children := i.children.erase id })) j = some w ∧
              w.parent = w₀.parent ∧
              (∀ c, c ∈ w₀.children → c ≠ id → c ∈ w.children) := by
          intro j w₀ hj hjid
          by_cases h2 : j = p
          · have hpv : w₀ = pi := by
              have h' := hj
              rw [h2, hpf] at h'
              exact (Option.some.inj h').symm
            refine ⟨{ w₀ with children := w₀.children.erase id }, ?_, rfl, ?_⟩
            · rw [hf, if_neg hjid, if_pos h2, hj]
              rfl
            · intro c hc hce
              exact (List.mem_erase_of_ne hce).mpr hc
          · refine ⟨w₀, ?_, rfl, fun c hc _ => hc⟩
            rw [hf, if_neg hjid, if_neg h2]
            exact hj
        refine ⟨?_, ?_, ?_, ?_, ?_, ?_⟩
        · -- rootOk
          obtain ⟨r, hr, hrp⟩ := hwf.rootOk
          simp only [Tree.find]
          obtain ⟨w, hw, hwp, _⟩ := hback t.rootId r hr (fun h => hroot h.symm)
          exact ⟨w, hw, by rw [hwp]; exact hrp⟩
        · -- parentOk
          intro j inst hj hjroot
          simp only [Tree.find] at hj ⊢
          obtain ⟨hjid, w₀, hj₀, hp₀, _, _⟩ := hlook j inst hj
          obtain ⟨q, qi, hqp, hqf, hqm⟩ := hwf.parentOk j w₀ hj₀ hjroot
          have hqid : q ≠ id := by
            intro h
            rw [h] at hqf
            have hqv : qi = v := by
              have h' := hqf
              rw [hid] at h'
              exact (Option.some.inj h').symm
            rw [hqv] at hqm
            exact hvempty j hqm
          obtain ⟨w, hw, _, hwm⟩ := hback q qi hqf hqid
          exact ⟨q, w, by rw [hp₀]; exact hqp, hw, hwm j hqm hjid⟩
        · -- childOk
          intro j inst c hj hc
          simp only [Tree.find] at hj ⊢
          obtain ⟨hjid, w₀, hj₀, _, hm₀, _⟩ := hlook j inst hj
          obtain ⟨hcm, hcid⟩ := hm₀ c hc
          obtain ⟨ci, hcf, hcp⟩ := hwf.childOk j w₀ c hj₀ hcm
          obtain ⟨w, hw, hwp, _⟩ := hback c ci hcf hcid
          exact ⟨w, hw, by rw [hwp]; exact hcp⟩
        · -- childUnique
          intro j₁ i₁ j₂ i₂ c h₁ h₂ hc₁ hc₂
          simp only [Tree.find] at h₁ h₂
          obtain ⟨_, w₁, hj₁, _, hm₁, _⟩ := hlook j₁ i₁ h₁
          obtain ⟨_, w₂, hj₂, _, hm₂, _⟩ := hlook j₂ i₂ h₂
          exact hwf.childUnique j₁ w₁ j₂ w₂ c hj₁ hj₂ (hm₁ c hc₁).1 (hm₂ c hc₂).1
        · -- childNodup
          intro j i hj
          simp only [Tree.find] at hj
          obtain ⟨_, w₀, hj₀, _, _, hnd₀⟩ := hlook j i hj
          exact hnd₀ (hwf.childNodup j w₀ hj₀)
        · -- ranked
          obtain ⟨rank, hrk⟩ := hwf.ranked
          refine ⟨rank, ?_⟩
          intro j i q hj hq
          simp only [Tree.find] at hj
          obtain ⟨_, w₀, hj₀, hp₀, _, _⟩ := hlook j i hj
          exact hrk j w₀ q hj₀ (by rw [← hp₀]; exact hq)
      · exact Option.noConfusion ht'
  · exact Option.noConfusion ht'

/-- Applying an accepted `updateChildren` diff (a reordering) preserves
tree well-formedness. -/
theorem wf_updateChildren (t t' : Tree) (id : Nat) (newChildren : List Nat)
    (hwf : WF t)
    (ht' : applyDiff t (Diff.updateChildren id newChildren) = some t') : WF t' := by
  simp only [applyDiff] at ht'
  split at ht'
  · rename_i v hid
    split_ifs at ht' with hperm
    injection ht' with ht'
    rw [← ht']
    refine wf_setEntry_preserved t id v _ hwf hid rfl ?_ ?_
    · intro c
      show c ∈ newChildren ↔ c ∈ v.children
      exact hperm.mem_iff
    · intro h
      show newChildren.Nodup
      exact hperm.nodup_iff.mpr h
  · exact Option.noConfusion ht'

/-- Every accepted diff preserves tree well-formedness. -/
theorem wf_applyDiff (t t' : Tree) (d : Diff) (hwf : WF t)
    (h : applyDiff t d = some t') : WF t' := by
  cases d with
  | add id cls props parentId => exact wf_add t t' id cls props parentId hwf h
  | updateProperties id props => exact wf_updateProperties t t' id props hwf h
  | updateChildren id ch => exact wf_updateChildren t t' id ch hwf h
  | remove id => exact wf_remove t t' id hwf h

/-- Well-formedness is an invariant of all reachable tree states. -/
theorem wf_reachable (init t : Tree) (hinit : WF init) (hr : Reachable init t) :
    WF t := by
  induction hr with
  | refl => exact hinit
  | step t₁ t₂ d _ hd ih => exact wf_applyDiff t₁ t₂ d ih hd

/-- A rank function certifying the parent links makes proper ancestry
strictly decrease the rank, so ancestry is irreflexive. -/
theorem rank_lt_of_ancestor (t : Tree) (rank : Nat → Nat)
    (hrk : ∀ id inst p, t.find id = some inst → inst.parent = some p →
      rank id = rank p + 1)
    (a c : Nat) (h : IsAncestor t a c) : rank a < rank c := by
  induction h with
  | parent c inst a hc hp =>
    rw [hrk c inst a hc hp]
    omega
  | trans a b c h₁ h₂ ih₁ ih₂ => omega

/-- A well-formed tree satisfies the full consistency bundle. -/
theorem wf_consistent (t : Tree) (hwf : WF t) : TreeConsistent t := by
  refine ⟨hwf.parentOk, hwf.childOk, hwf.childUnique, ?_⟩
  intro x hx
  obtain ⟨rank, hrk⟩ := hwf.ranked
  exact absurd (rank_lt_of_ancestor t rank hrk x x hx) (lt_irrefl _)

/-- The single-root initial tree is well-formed. -/
theorem wf_initialTree (sid rid : Nat) (cls : String) :
    WF (initialSession sid rid cls).tree := by
  have hf : ∀ j, Tree.find (initialSession sid rid cls).tree j =
      if rid = j then
        some { className := cls, properties := [], children := [], parent := none }
      else none := fun _ => rfl
  have hroot : (initialSession sid rid cls).tree.rootId = rid := rfl
  refine ⟨?_, ?_, ?_, ?_, ?_, ?_⟩
  · refine ⟨{ className := cls, properties := [], children := [], parent := none }, ?_, rfl⟩
    rw [hroot, hf, if_pos rfl]
  · intro j inst hj hjroot
    by_cases h1 : rid = j
    · rw [hroot] at hjroot
      exact absurd h1.symm hjroot
    · rw [hf, if_neg h1] at hj
      exact Option.noConfusion hj
  · intro j inst c hj hc
    by_cases h1 : rid = j
    · rw [hf, if_pos h1] at hj
      injection hj with hj
      rw [← hj] at hc
      simp at hc
    · rw [hf, if_neg h1] at hj
      exact Option.noConfusion hj
  · intro j₁ i₁ j₂ i₂ c h₁ h₂ hc₁ hc₂
    by_cases ha : rid = j₁
    · rw [hf, if_pos ha] at h₁
      injection h₁ with h₁
      rw [← h₁] at hc₁
      simp at hc₁
    · rw [hf, if_neg ha] at h₁
      exact Option.noConfusion h₁
  · intro j i hj
    by_cases h1 : rid = j
    · rw [hf, if_pos h1] at hj
      injection hj with hj
      rw [← hj]
      exact List.nodup_nil
    · rw [hf, if_neg h1] at hj
      exact Option.noConfusion hj
  · refine ⟨fun _ => 0, ?_⟩
    intro j i q hj hq
    by_cases h1 : rid = j
    · rw [hf, if_pos h1] at hj
      injection hj with hj
      rw [← hj] at hq
      have hq2 : (none : Option Nat) = some q := hq
      exact Option.noConfusion hq2
    · rw [hf, if_neg h1] at hj
      exact Option.noConfusion hj

theorem foldl_max_init_le (l : List ChangeRecord) (a : Nat) :
    a ≤ l.foldl (fun x r => max x r.cursor) a := by
  induction l generalizing a with
  | nil => exact le_refl a
  | cons r rest ih =>
    simp only [List.foldl_cons]
    exact le_trans (le_max_left a r.cursor) (ih (max a r.cursor))

theorem mem_le_foldl_max (l : List ChangeRecord) (a : Nat) (r : ChangeRecord)
    (h : r ∈ l) : r.cursor ≤ l.foldl (fun x r => max x r.cursor) a := by
  induction l generalizing a with
  | nil => cases h
  | cons s rest ih =>
    simp only [List.foldl_cons]
    rcases List.mem_cons.mp h with h1 | h1
    · rw [h1]
      exact le_trans (le_max_right a s.cursor) (foldl_max_init_le rest _)
    · exact ih (max a s.cursor) h1

theorem foldl_max_cases (l : List ChangeRecord) (a : Nat) :
    l.foldl (fun x r => max x r.cursor) a = a ∨
    ∃ r ∈ l, l.foldl (fun x r => max x r.cursor) a = r.cursor := by
  induction l generalizing a with
  | nil => exact Or.inl rfl
  | cons s rest ih =>
    simp only [List.foldl_cons]
    rcases ih (max a s.cursor) with h | ⟨r, hr, hre⟩
    · by_cases hc : s.cursor ≤ a
      · exact Or.inl (by rw [h]; exact max_eq_left hc)
      · refine Or.inr ⟨s, List.mem_cons_self s rest, ?_⟩
        rw [h]
        exact max_eq_right (le_of_not_le hc)
    · exact Or.inr ⟨r, List.mem_cons_of_mem s hr, hre⟩

theorem changes_since_valid (s : Session) (c : Nat) (hv : ValidCursor s c) :
    changes_since s c = Except.ok
      (s.log.filter (fun r => decide (c < r.cursor)),
       (s.log.filter (fun r => decide (c < r.cursor))).foldl
         (fun a r => max a r.cursor) c) := by
  unfold changes_since
  rw [if_pos (show c = 0 ∨ c ∈ cursors s from hv)]

theorem changes_since_stale_eq (s : Session) (c : Nat)
    (h : ¬ (c = 0 ∨ c ∈ cursors s)) :
    changes_since s c = Except.error StaleError.staleSession := by
  unfold changes_since
  rw [if_neg h]

theorem valid_lt_next (s : Session) (hs : SInv s) (c : Nat) (hv : ValidCursor s c) :
    c < s.nextCursor := by
  rcases hv with h | h
  · rw [h]
    exact lt_of_lt_of_le Nat.zero_lt_one hs.nextPos
  · obtain ⟨r, hr, hrc⟩ := List.mem_map.mp h
    rw [← hrc]
    exact hs.bounded r hr

theorem log_le_newCursor (s : Session) (c : Nat) :
    ∀ r ∈ s.log, r.cursor ≤
      (s.log.filter (fun r => decide (c < r.cursor))).foldl
        (fun a r => max a r.cursor) c := by
  intro r hr
  by_cases hc : c < r.cursor
  · exact mem_le_foldl_max _ c r (List.mem_filter.mpr ⟨hr, by simpa using hc⟩)
  · exact le_trans (le_of_not_lt hc) (foldl_max_init_le _ c)

theorem valid_newCursor (s : Session) (c : Nat) (hv : ValidCursor s c) :
    ValidCursor s ((s.log.filter (fun r => decide (c < r.cursor))).foldl
      (fun a r => max a r.cursor) c) := by
  rcases foldl_max_cases (s.log.filter (fun r => decide (c < r.cursor))) c with h | ⟨r, hr, hre⟩
  · rw [h]
    exact hv
  · right
    rw [hre]
    exact List.mem_map.mpr ⟨r, List.mem_of_mem_filter hr, rfl⟩

theorem applyOne_log (s : Session) (d : Diff) :
    ∃ tail, (applyOne s d).log = s.log ++ tail ∧
      s.nextCursor ≤ (applyOne s d).nextCursor ∧
      ∀ r ∈ tail, s.nextCursor ≤ r.cursor ∧ r.cursor < (applyOne s d).nextCursor := by
  unfold applyOne
  split
  · refine ⟨[(⟨s.nextCursor, d⟩ : ChangeRecord)], rfl, Nat.le_succ _, ?_⟩
    intro r hr
    simp only [List.mem_singleton] at hr
    rw [hr]
    exact ⟨le_refl _, Nat.lt_succ_self _⟩
  · exact ⟨[], by simp, le_refl _, by simp⟩

theorem applyDiffs_log (s : Session) (b : List Diff) :
    ∃ tail, (applyDiffs s b).log = s.log ++ tail ∧
      s.nextCursor ≤ (applyDiffs s b).nextCursor ∧
      ∀ r ∈ tail, s.nextCursor ≤ r.cursor ∧ r.cursor < (applyDiffs s b).nextCursor := by
  induction b generalizing s with
  | nil => exact ⟨[], by simp [applyDiffs], le_refl _, by simp⟩
  | cons d rest ih =>
    have hstep : applyDiffs s (d :: rest) = applyDiffs (applyOne s d) rest := rfl
    obtain ⟨t1, h1, hn1, hb1⟩ := applyOne_log s d
    obtain ⟨t2, h2, hn2, hb2⟩ := ih (applyOne s d)
    refine ⟨t1 ++ t2, ?_, ?_, ?_⟩
    · rw [hstep, h2, h1, List.append_assoc]
    · rw [hstep]
      exact le_trans hn1 hn2
    · intro r hr
      rw [hstep]
      rcases List.mem_append.mp hr with h | h
      · obtain ⟨ha, hb⟩ := hb1 r h
        exact ⟨ha, lt_of_lt_of_le hb hn2⟩
      · obtain ⟨ha, hb⟩ := hb2 r h
        exact ⟨le_trans hn1 ha, hb⟩

theorem sinv_applyOne (s : Session) (d : Diff) (hs : SInv s) : SInv (applyOne s d) := by
  unfold applyOne
  split
  · constructor
    · show List.Pairwise (· < ·)
        ((s.log ++ [(⟨s.nextCursor, d⟩ : ChangeRecord)]).map ChangeRecord.cursor)
      rw [List.map_append, List.pairwise_append]
      refine ⟨hs.sorted, List.pairwise_singleton _ _, ?_⟩
      intro x hx y hy
      simp only [List.map_cons, List.map_nil, List.mem_singleton] at hy
      obtain ⟨r, hr, hrx⟩ := List.mem_map.mp hx
      rw [← hrx, hy]
      exact hs.bounded r hr
    · intro r hr
      rcases List.mem_append.mp hr with h | h
      · exact lt_trans (hs.bounded r h) (Nat.lt_succ_self _)
      · simp only [List.mem_singleton] at h
        rw [h]
        exact Nat.lt_succ_self _
    · intro r hr
      rcases List.mem_append.mp hr with h | h
      · exact hs.positive r h
      · simp only [List.mem_singleton] at h
        rw [h]
        exact lt_of_lt_of_le Nat.zero_lt_one hs.nextPos
    · exact le_trans hs.nextPos (Nat.le_succ _)
  · exact hs

theorem sinv_applyDiffs (s : Session) (b : List Diff) (hs : SInv s) :
    SInv (applyDiffs s b) := by
  induction b generalizing s with
  | nil => exact hs
  | cons d rest ih => exact ih (applyOne s d) (sinv_applyOne s d hs)

theorem valid_applyDiffs (s : Session) (b : List Diff) (c : Nat)
    (hv : ValidCursor s c) : ValidCursor (applyDiffs s b) c := by
  rcases hv with h | h
  · exact Or.inl h
  · obtain ⟨tail, hlog, _, _⟩ := applyDiffs_log s b
    right
    show c ∈ (applyDiffs s b).log.map ChangeRecord.cursor
    rw [hlog, List.map_append]
    exact List.mem_append_left _ h

theorem applyBatchList_log (s : Session) (bs : List (List Diff)) :
    ∃ tail, (applyBatchList s bs).log = s.log ++ tail ∧
      s.nextCursor ≤ (applyBatchList s bs).nextCursor ∧
      ∀ r ∈ tail, s.nextCursor ≤ r.cursor := by
  induction bs generalizing s with
  | nil => exact ⟨[], by simp [applyBatchList], le_refl _, by simp⟩
  | cons b rest ih =>
    have hstep : applyBatchList s (b :: rest) = applyBatchList (applyDiffs s b) rest := rfl
    obtain ⟨t1, h1, hn1, hb1⟩ := applyDiffs_log s b
    obtain ⟨t2, h2, hn2, hb2⟩ := ih (applyDiffs s b)
    refine ⟨t1 ++ t2, ?_, ?_, ?_⟩
    · rw [hstep, h2, h1, List.append_assoc]
    · rw [hstep]
      exact le_trans hn1 hn2
    · intro r hr
      rcases List.mem_append.mp hr with h | h
      · exact (hb1 r h).1
      · exact le_trans hn1 (hb2 r h)

theorem sinv_initialSession (sid rid : Nat) (cls : String) :
    SInv (initialSession sid rid cls) := by
  refine ⟨List.Pairwise.nil, ?_, ?_, le_refl 1⟩
  · intro r hr
    cases hr
  · intro r hr
    cases hr

theorem runEvents_eq (s : Session) (es : List Event) :
    runEvents s es = applyBatchList s (writesOf es) := by
  induction es generalizing s with
  | nil => rfl
  | cons e rest ih =>
    cases e with
    | write b => exact ih (applyDiffs s b)
    | readInstance id => exact ih s
    | readRootInfo => exact ih s
    | readChanges c => exact ih s

theorem writesOf_take (es : List Event) (i : Nat) :
    ∃ k, k ≤ (writesOf es).length ∧ writesOf (es.take i) = (writesOf es).take k := by
  induction es generalizing i with
  | nil => exact ⟨0, Nat.zero_le _, by simp [writesOf]⟩
  | cons e rest ih =>
    cases i with
    | zero => exact ⟨0, Nat.zero_le _, by simp [writesOf]⟩
    | succ n =>
      obtain ⟨k, hk, he⟩ := ih n
      cases e with
      | write b =>
        refine ⟨k + 1, ?_, ?_⟩
        · simp only [writesOf, List.filterMap_cons]
          simp only [writesOf] at hk
          simp [Nat.succ_le_succ hk]
        · simp only [List.take_succ_cons, writesOf, List.filterMap_cons]
          simp only [writesOf] at he
          simp [he]
      | readInstance id =>
        refine ⟨k, ?_, ?_⟩
        · simp only [writesOf, List.filterMap_cons]
          simpa [writesOf] using hk
        · simp only [List.take_succ_cons, writesOf, List.filterMap_cons]
          simpa [writesOf] using he
      | readRootInfo =>
        refine ⟨k, ?_, ?_⟩
        · simp only [writesOf, List.filterMap_cons]
          simpa [writesOf] using hk
        · simp only [List.take_succ_cons, writesOf, List.filterMap_cons]
          simpa [writesOf] using he
      | readChanges c =>
        refine ⟨k, ?_, ?_⟩
        · simp only [writesOf, List.filterMap_cons]
          simpa [writesOf] using hk
        · simp only [List.take_succ_cons, writesOf, List.filterMap_cons]
          simpa [writesOf] using he

theorem changes_since_mono (s : Session) (c : Nat) (msgs : List ChangeRecord)
    (c' : Nat) (h : changes_since s c = Except.ok (msgs, c')) : c ≤ c' := by
  by_cases hv : c = 0 ∨ c ∈ cursors s
  · rw [changes_since_valid s c hv] at h
    injection h with h
    have h2 : c' = (s.log.filter (fun r => decide (c < r.cursor))).foldl
        (fun a r => max a r.cursor) c := (congrArg Prod.snd h).symm
    rw [h2]
    exact foldl_max_init_le _ c
  · rw [changes_since_stale_eq s c hv] at h
    exact Except.noConfusion h

theorem changes_since_log_only (s₁ s₂ : Session) (c : Nat) (h : s₁.log = s₂.log) :
    changes_since s₁ c = changes_since s₂ c := by
  unfold changes_since
  have hc : cursors s₁ = cursors s₂ := by
    unfold cursors
    rw [h]
  rw [hc, h]

/-- C1: No lost updates — for a session holding invariant `SInv` and a
client starting from a cursor it legitimately holds, the concatenation
of all `messages` returned across repeated `changes_since` calls (one
per applied diff batch, each passing the cursor returned by the previous
call) equals the full ordered change history past the client's original
cursor in the final log; no change record is ever skipped. -/
theorem no_lost_updates (s : Session) (c : Nat) (batches : List (List Diff))
    (hs : SInv s) (hv : ValidCursor s c) :
    (clientRun s c batches).1 =
      (applyBatchList s batches).log.filter (fun r => decide (c < r.cursor)) := by
  induction batches generalizing s c with
  | nil =>
    have h := changes_since_valid s c hv
    simp only [clientRun, h, applyBatchList, List.foldl_nil]
  | cons b bs ih =>
    have h := changes_since_valid s c hv
    have hv' := valid_newCursor s c hv
    have hlogle := log_le_newCursor s c
    set c' := (s.log.filter (fun r => decide (c < r.cursor))).foldl
      (fun a r => max a r.cursor) c with hc'
    have hs' := sinv_applyDiffs s b hs
    have hv2 := valid_applyDiffs s b c' hv'
    have ihr := ih (applyDiffs s b) c' hs' hv2
    have hcn := valid_lt_next s hs c hv
    have hc'n := valid_lt_next s hs c' hv'
    simp only [clientRun, h]
    rw [ihr]
    have hbl : applyBatchList s (b :: bs) = applyBatchList (applyDiffs s b) bs := rfl
    obtain ⟨T, hT, _, hTc⟩ := applyBatchList_log s (b :: bs)
    rw [hbl] at hT
    rw [hbl, hT, List.filter_append, List.filter_append]
    have e1 : s.log.filter (fun r => decide (c' < r.cursor)) = [] := by
      rw [List.filter_eq_nil_iff]
      intro a ha
      simp only [decide_eq_true_eq]
      exact not_lt.mpr (hlogle a ha)
    have e2 : T.filter (fun r => decide (c' < r.cursor)) = T := by
      rw [List.filter_eq_self]
      intro a ha
      simp only [decide_eq_true_eq]
      exact lt_of_lt_of_le hc'n (hTc a ha)
    have e3 : T.filter (fun r => decide (c < r.cursor)) = T := by
      rw [List.filter_eq_self]
      intro a ha
      simp only [decide_eq_true_eq]
      exact lt_of_lt_of_le hcn (hTc a ha)
    rw [e1, e2, e3, List.nil_append]

/-- Witness for C1: a concrete two-batch run from the initial session. -/
theorem no_lost_updates_witness :
    (clientRun (initialSession 7 0 "Root") 0
        [[Diff.add 1 "Folder" [] 0], [Diff.updateProperties 1 [("Name", "x")]]]).1 =
      (applyBatchList (initialSession 7 0 "Root")
          [[Diff.add 1 "Folder" [] 0],
           [Diff.updateProperties 1 [("Name", "x")]]]).log.filter
        (fun r => decide (0 < r.cursor)) :=
  no_lost_updates (initialSession 7 0 "Root") 0
    [[Diff.add 1 "Folder" [] 0], [Diff.updateProperties 1 [("Name", "x")]]]
    (sinv_initialSession 7 0 "Root") (Or.inl rfl)

/-- C2: Cursor monotonicity and determinism — successive `changes_since`
calls return non-decreasing cursors, and the result depends only on the
change log and the input cursor, so two clients with the same cursor
against the same log receive identical results. -/
theorem cursor_monotonicity_and_determinism (s s' : Session) (c c₁ c₂ : Nat)
    (msgs msgs' : List ChangeRecord)
    (h₁ : changes_since s c = Except.ok (msgs, c₁))
    (h₂ : changes_since s' c₁ = Except.ok (msgs', c₂)) :
    (c ≤ c₁ ∧ c₁ ≤ c₂) ∧
    ∀ s₂ : Session, s₂.log = s.log → changes_since s₂ c = changes_since s c := by
  refine ⟨⟨changes_since_mono s c msgs c₁ h₁, changes_since_mono s' c₁ msgs' c₂ h₂⟩, ?_⟩
  intro s₂ hl
  exact changes_since_log_only s₂ s c hl

/-- Witness for C2 at a concrete session. -/
theorem cursor_monotonicity_and_determinism_witness :
    (0 ≤ 1 ∧ 1 ≤ 1) ∧
    ∀ s₂ : Session,
      s₂.log = (applyDiffs (initialSession 3 0 "Root") [Diff.add 1 "Folder" [] 0]).log →
      changes_since s₂ 0 =
        changes_since (applyDiffs (initialSession 3 0 "Root") [Diff.add 1 "Folder" [] 0]) 0 :=
  cursor_monotonicity_and_determinism
    (applyDiffs (initialSession 3 0 "Root") [Diff.add 1 "Folder" [] 0])
    (applyDiffs (initialSession 3 0 "Root") [Diff.add 1 "Folder" [] 0])
    0 1 1 [⟨1, Diff.add 1 "Folder" [] 0⟩] [] rfl rfl

/-- C3: Tree consistency — in every tree state reachable by applying
accepted diffs from a well-formed initial state (the states observable
by a read), every non-root instance's parent id resolves to an existing
instance listing it as a child, every listed child id resolves back to
its parent, each child id is listed by at most one parent, and the
ancestor relation has no cycles. -/
theorem tree_consistency (init t : Tree) (hinit : WF init) (hr : Reachable init t) :
    TreeConsistent t :=
  wf_consistent t (wf_reachable init t hinit hr)

/-- Witness for C3: the tree after adding one child under the root. -/
theorem tree_consistency_witness :
    TreeConsistent
      ⟨0, [(0, { className := "Root", properties := [], children := [1], parent := none }),
           (1, { className := "Folder", properties := [], children := [], parent := some 0 })]⟩ :=
  tree_consistency (initialSession 1 0 "Root").tree _
    (wf_initialTree 1 0 "Root")
    (Reachable.step _ _ (Diff.add 1 "Folder" [] 0) Reachable.refl (by rfl))

/-- C4: Batch atomicity with respect to readers — in any serialized
history of whole-batch writes interleaved with reads, the state observed
at any point (by `get_instance`, `get_root_info` or `changes_since`)
equals the state obtained by fully applying some prefix of the written
diff batches; no read ever observes a partially applied batch. -/
theorem batch_atomicity (s : Session) (es : List Event) (i : Nat) :
    ∃ k, k ≤ (writesOf es).length ∧
      runEvents s (es.take i) = applyBatchList s ((writesOf es).take k) ∧
      (∀ id, get_instance (runEvents s (es.take i)) id =
        get_instance (applyBatchList s ((writesOf es).take k)) id) ∧
      get_root_info (runEvents s (es.take i)) =
        get_root_info (applyBatchList s ((writesOf es).take k)) ∧
      ∀ cur, changes_since (runEvents s (es.take i)) cur =
        changes_since (applyBatchList s ((writesOf es).take k)) cur := by
  obtain ⟨k, hk, he⟩ := writesOf_take es i
  have heq : runEvents s (es.take i) = applyBatchList s ((writesOf es).take k) := by
    rw [runEvents_eq, he]
  exact ⟨k, hk, heq, fun id => by rw [heq], by rw [heq], fun cur => by rw [heq]⟩

/-- C5: Idempotent no-op wait — subscribing with the session's current
up-to-date cursor returns an empty message list together with exactly
the same cursor: never an error, never a different cursor. -/
theorem noop_wait_same_cursor (s : Session) :
    changes_since s (highWaterMark s) = Except.ok ([], highWaterMark s) := by
  have hvalid : ValidCursor s (highWaterMark s) := by
    rcases foldl_max_cases s.log 0 with h | ⟨r, hr, hre⟩
    · exact Or.inl h
    · right
      show highWaterMark s ∈ cursors s
      unfold highWaterMark
      rw [hre]
      exact List.mem_map.mpr ⟨r, hr, rfl⟩
  have hempty : s.log.filter (fun r => decide (highWaterMark s < r.cursor)) = [] := by
    rw [List.filter_eq_nil_iff]
    intro r hr
    simp only [decide_eq_true_eq]
    exact not_lt.mpr (mem_le_foldl_max s.log 0 r hr)
  rw [changes_since_valid s _ hvalid, hempty]
  rfl

/-- C6: Stale-session detection — a cursor that is neither the initial
cursor nor the cursor of any record this session ever issued yields the
distinct stale-session condition, never a successful (possibly empty)
result. -/
theorem stale_session_detected (s : Session) (c : Nat)
    (h0 : c ≠ 0) (hc : c ∉ cursors s) :
    changes_since s c = Except.error StaleError.staleSession ∧
    ∀ msgs newc, changes_since s c ≠ Except.ok (msgs, newc) := by
  have h : changes_since s c = Except.error StaleError.staleSession := by
    apply changes_since_stale_eq
    rintro (h | h)
    · exact h0 h
    · exact hc h
  refine ⟨h, ?_⟩
  intro msgs newc hcontra
  rw [h] at hcontra
  exact Except.noConfusion hcontra

/-- Witness for C6: a foreign cursor against a fresh session. -/
theorem stale_session_detected_witness :
    changes_since (initialSession 5 0 "Root") 42 = Except.error StaleError.staleSession ∧
    ∀ msgs newc, changes_since (initialSession 5 0 "Root") 42 ≠ Except.ok (msgs, newc) :=
  stale_session_detected (initialSession 5 0 "Root") 42 (by decide) (by decide)

end Sync

namespace Ui

/-- C8: Presentation-layer inertness — every request handled by
`UiService::call` leaves the service and the serve session state exactly
as they were; the handlers only read session state. -/
theorem presentation_inert (svc : UiService) (now : Nat) (req : Request) :
    (call svc now req).2 = svc ∧
    (call svc now req).2.serve_session = svc.serve_session := by
  rcases req with ⟨m, p⟩
  unfold call
  split <;> exact ⟨rfl, rfl⟩

/-- C7: Total route dispatch with structured errors — `UiService::call`
always returns a successful future; a GET on one of the five routes gets
that route's page response, and every other method/path combination gets
a structured NotFound JSON response with status 404 whose message names
the requested path. The service state is returned unchanged. -/
theorem total_route_dispatch (svc : UiService) (now : Nat) (req : Request) :
    call svc now req =
      (Except.ok (
        if req.method = Method.GET ∧ req.path = "/" then handle_home svc now
        else if req.method = Method.GET ∧ req.path = "/logo.png" then handle_logo
        else if req.method = Method.GET ∧ req.path = "/icon.png" then handle_icon
        else if req.method = Method.GET ∧ req.path = "/show-instances" then
          handle_show_instances
        else if req.method = Method.GET ∧ req.path = "/show-imfs" then handle_show_imfs
        else { status := 404, contentType := "application/json",
               body := RespBody.json
                 (ErrorResponse.not_found ("Route not found: " ++ req.path)) }),
       svc) := by
  unfold call
  split
  · rename_i hm hp
    rw [hm, hp]
    simp
  · rename_i hm hp
    rw [hm, hp]
    simp
  · rename_i hm hp
    rw [hm, hp]
    simp
  · rename_i hm hp
    rw [hm, hp]
    simp
  · rename_i hm hp
    rw [hm, hp]
    simp
  · rename_i h1 h2 h3 h4 h5
    split_ifs with g1 g2 g3 g4 g5
    · exact absurd g1.2 (h1 g1.1)
    · exact absurd g2.2 (h2 g2.1)
    · exact absurd g3.2 (h3 g3.1)
    · exact absurd g4.2 (h4 g4.1)
    · exact absurd g5.2 (h5 g5.1)
    · rfl

end Ui

namespace Ui

/-- C10: Unnamed-project fallback — rendering the home status page
succeeds even when the session reports no project name: `normal_page`
substitutes the literal string `<unnamed>` for the missing name, so the
page carries every stat field and no error occurs. -/
theorem unnamed_project_fallback (svc : UiService) (now : Nat) (body : Html)
    (h : svc.serve_session.projectName = none) :
    handle_home svc now =
      { status := 200, contentType := "text/html",
        body := RespBody.html (normal_page svc now homeButtons) } ∧
    normal_page svc now body =
      page (Html.elem "div" [("class", "root")]
        [ Html.elem "header" [("class", "header")]
            [ Html.elem "img" [("class", "main-logo"), ("src", "/logo.png")] [],
              Html.elem "div" [("class", "stats")]
                [ stat_item "Server Version" SERVER_VERSION,
                  stat_item "Project" "<unnamed>",
                  stat_item "Server Uptime" (uptimeString svc.serve_session now) ] ],
          Html.elem "main" [("class", "main")] [body] ]) := by
  refine ⟨rfl, ?_⟩
  unfold normal_page
  rw [h]
  rfl

/-- Witness for C10 at a concrete session without a project name. -/
theorem unnamed_project_fallback_witness :
    handle_home ⟨⟨none, 0⟩⟩ 0 =
      { status := 200, contentType := "text/html",
        body := RespBody.html (normal_page ⟨⟨none, 0⟩⟩ 0 homeButtons) } ∧
    normal_page ⟨⟨none, 0⟩⟩ 0 (Html.text "b") =
      page (Html.elem "div" [("class", "root")]
        [ Html.elem "header" [("class", "header")]
            [ Html.elem "img" [("class", "main-logo"), ("src", "/logo.png")] [],
              Html.elem "div" [("class", "stats")]
                [ stat_item "Server Version" SERVER_VERSION,
                  stat_item "Project" "<unnamed>",
                  stat_item "Server Uptime" (uptimeString ⟨none, 0⟩ 0) ] ],
          Html.elem "main" [("class", "main")] [Html.text "b"] ]) :=
  unnamed_project_fallback ⟨⟨none, 0⟩⟩ 0 (Html.text "b") rfl

end Ui

namespace PortAlloc

theorem portStateAfter_closed (n : Nat) :
    portStateAfter n = (NEXT_PORT_INIT + n) % USIZE_MOD := by
  induction n with
  | zero => rfl
  | succ k ih =>
    show (portStateAfter k + 1) % USIZE_MOD = (NEXT_PORT_INIT + (k + 1)) % USIZE_MOD
    rw [ih]
    simp only [USIZE_MOD, NEXT_PORT_INIT]
    omega

theorem portValue_closed (n : Nat) :
    portValue n = (NEXT_PORT_INIT + n) % USIZE_MOD := by
  show portStateAfter n % USIZE_MOD = (NEXT_PORT_INIT + n) % USIZE_MOD
  rw [portStateAfter_closed]
  simp only [USIZE_MOD, NEXT_PORT_INIT]
  omega

/-- C9 counterexample: `usize` arithmetic wraps, so the claim that every
call returns one more than the previous call's value and that no value
repeats within a process fails at the wrap-around call index: call
number `2 ^ 64 - 35103` returns 0, not one more than the previous call's
`2 ^ 64 - 1`, and call number `2 ^ 64` repeats call number 0's value. -/
theorem port_counter_wraps :
    portValue (2 ^ 64 - 35103) = 0 ∧
    portValue (2 ^ 64 - 35103 - 1) = 2 ^ 64 - 1 ∧
    ¬ (portValue (2 ^ 64 - 35103 - 1) < portValue (2 ^ 64 - 35103)) ∧
    portValue (2 ^ 64) = portValue 0 ∧ (2 ^ 64 : Nat) ≠ 0 := by
  simp only [portValue_closed, USIZE_MOD, NEXT_PORT_INIT]
  norm_num

/-- C9 amended: `get_port_number` is the documented process-scoped
counter with initial value 35103 and wrapping (`usize`) increment: call
`n` returns `(35103 + n) mod 2 ^ 64`; the first call returns 35103, and
as long as the counter has not wrapped each call returns one more than
the previous call and the returned values are strictly increasing, hence
pairwise distinct. -/
theorem port_counter_increments (n m : Nat) :
    portValue 0 = 35103 ∧
    portValue n = (35103 + n) % 2 ^ 64 ∧
    (35103 + n + 1 < 2 ^ 64 → portValue (n + 1) = portValue n + 1) ∧
    (m < n → 35103 + n < 2 ^ 64 → portValue m < portValue n) := by
  have hpow : (2 : Nat) ^ 64 = 18446744073709551616 := by norm_num
  have hc : ∀ j, portValue j = (35103 + j) % 2 ^ 64 := fun j => portValue_closed j
  refine ⟨?_, hc n, ?_, ?_⟩
  · rw [hc 0]
    norm_num
  · intro h
    rw [hc (n + 1), hc n]
    rw [hpow] at h ⊢
    rw [Nat.mod_eq_of_lt (by omega), Nat.mod_eq_of_lt (by omega)]
    omega
  · intro hmn hlt
    rw [hc m, hc n]
    rw [hpow] at hlt ⊢
    rw [Nat.mod_eq_of_lt (by omega), Nat.mod_eq_of_lt (by omega)]
    omega

/-- Witness for the amended C9 at concrete call indices. -/
theorem port_counter_increments_witness :
    portValue 0 = 35103 ∧
    portValue 2 = (35103 + 2) % 2 ^ 64 ∧
    portValue 3 = portValue 2 + 1 ∧
    portValue 1 < portValue 2 := by
  obtain ⟨h0, hn, hinc, hmono⟩ := port_counter_increments 2 1
  exact ⟨h0, hn, hinc (by norm_num), hmono (by norm_num) (by norm_num)⟩

end PortAlloc
